import Mathlib

/-!
Verification of the hash-to-G2 core of RELIC
(`src/epx/relic_ep2_map.c`): the try-and-increment candidate finder
(`ep2_map`), the isogeny transformer (`ep2_iso`) with its Horner
polynomial evaluator (`fp2_eval`), and the BN / BLS12 / generic
cofactor-clearing routines (`ep2_mul_cof_bn`, `ep2_mul_cof_b12`, the
default branch of `ep2_map`).

The external collaborators (field and point arithmetic, digest, big
integers, the curve-parameter registry) are out of scope of the C file
and are modelled from the specification, as documented on each such
definition.  The routines of the C file itself are translated
statement by statement.
-/

/-! ## Group-level model of G2 points

For the cofactor clearers the relevant structure is the additive group
of curve points together with the Frobenius-based twist endomorphism ψ
and the `normalized` flag that the C `ep2_t` carries.  The group is an
arbitrary additive commutative group `G`; ψ is an arbitrary function
`G → G` (its arithmetic properties are irrelevant to the routines'
dataflow). -/

/-- A G2 point as the cofactor clearers see it: its group value and the
`norm` (normalized / affine) flag of the C `ep2_t` structure. -/
structure EP2 (G : Type) where
  val : G
  norm : Bool
deriving DecidableEq

/-- Modelled from the spec: point addition (external group law).  The
result of a projective addition is not in affine form, so its
`normalized` flag is cleared. -/
def ep2_add {G : Type} [AddCommGroup G] (p q : EP2 G) : EP2 G :=
  ⟨p.val + q.val, false⟩

/-- Modelled from the spec: point subtraction (external group law),
projective result. -/
def ep2_sub {G : Type} [AddCommGroup G] (p q : EP2 G) : EP2 G :=
  ⟨p.val - q.val, false⟩

/-- Modelled from the spec: point doubling (external group law),
projective result. -/
def ep2_dbl {G : Type} [AddCommGroup G] (p : EP2 G) : EP2 G :=
  ⟨p.val + p.val, false⟩

/-- Modelled from the spec: normalization (affine conversion).  The
group value is unchanged and the `normalized` flag becomes true. -/
def ep2_norm {G : Type} (p : EP2 G) : EP2 G :=
  ⟨p.val, true⟩

/-- Modelled from the spec: `ep2_frb r p i` applies the Frobenius-based
endomorphism ψ `i` times (spec 4.4: "ψ = apply-Frobenius-k-times").  It
acts coordinate-wise on the affine coordinates, so the `normalized`
flag of the input is preserved. -/
def ep2_frb {G : Type} (ψ : G → G) (p : EP2 G) (i : ℕ) : EP2 G :=
  ⟨ψ^[i] p.val, p.norm⟩

/-- Modelled from the spec: `ep2_mul_basic` scalar multiplication by a
(signed) big integer.  Per spec 4.4 its result is fed directly to ψ
(which requires a normalized point), so it returns a normalized
point. -/
def ep2_mul_basic {G : Type} [AddCommGroup G] (p : EP2 G) (x : ℤ) : EP2 G :=
  ⟨x • p.val, true⟩

/-- `ep2_mul_cof_bn` (lines 123-168 of `relic_ep2_map.c`): cofactor
clearing on a BN curve, translated statement by statement.  `x` is the
family-defining integer returned by `fp_prime_get_par`. -/
def ep2_mul_cof_bn {G : Type} [AddCommGroup G] (ψ : G → G) (x : ℤ)
    (p : EP2 G) : EP2 G :=
  let t0 := ep2_mul_basic p x
  let t1 := ep2_dbl t0
  let t1 := ep2_add t1 t0
  let t1 := ep2_norm t1
  let t1 := ep2_frb ψ t1 1
  let t2 := ep2_frb ψ p 2
  let t2 := ep2_frb ψ t2 1
  let t2 := ep2_add t2 t0
  let t2 := ep2_add t2 t1
  let t1 := ep2_frb ψ t0 2
  let t2 := ep2_add t2 t1
  ep2_norm t2

/-- `ep2_mul_cof_b12` (lines 176-223 of `relic_ep2_map.c`): cofactor
clearing on a BLS12 curve, translated statement by statement. -/
def ep2_mul_cof_b12 {G : Type} [AddCommGroup G] (ψ : G → G) (x : ℤ)
    (p : EP2 G) : EP2 G :=
  let t0 := ep2_mul_basic p x
  let t1 := ep2_mul_basic t0 x
  let t2 := ep2_sub t1 t0
  let t2 := ep2_sub t2 p
  let t3 := ep2_sub t0 p
  let t3 := ep2_frb ψ t3 1
  let t2 := ep2_add t2 t3
  let t3 := ep2_dbl p
  let t3 := ep2_frb ψ t3 2
  let t2 := ep2_add t2 t3
  ep2_norm t2

/-- C2: on a BN curve, for a normalized input `p`, `ep2_mul_cof_bn`
returns the normalized point `ψ³(p) + t0 + ψ(3·t0) + ψ²(t0)` with
`t0 = [x]p`, and every point to which ψ is applied inside the routine
(`t0`, the normalized `3·t0`, `p` itself, and `ψ²(p)` on the way to
`ψ³(p)`) carries the normalized flag at that moment. -/
theorem ep2_mul_cof_bn_spec {G : Type} [AddCommGroup G] (ψ : G → G)
    (x : ℤ) (p : EP2 G) (hp : p.norm = true) :
    ep2_mul_cof_bn ψ x p =
      ⟨ψ^[3] p.val + x • p.val + ψ ((3 : ℤ) • (x • p.val)) +
        ψ^[2] (x • p.val), true⟩ ∧
    (ep2_mul_basic p x).norm = true ∧
    (ep2_norm (ep2_add (ep2_dbl (ep2_mul_basic p x))
      (ep2_mul_basic p x))).norm = true ∧
    (ep2_frb ψ p 2).norm = true := by
  refine ⟨?_, rfl, rfl, by simp [ep2_frb, hp]⟩
  simp only [ep2_mul_cof_bn, ep2_mul_basic, ep2_dbl, ep2_add, ep2_norm,
    ep2_frb, EP2.mk.injEq, and_true]
  have h3 : (3 : ℤ) • (x • p.val) = x • p.val + x • p.val + x • p.val := by
    rw [show (3 : ℤ) = 1 + 1 + 1 from rfl, add_smul, add_smul, one_smul]
  rw [h3]
  simp [Function.iterate_succ_apply']

/-- Witness for `ep2_mul_cof_bn_spec` at `G = ℤ`, `ψ = (2 * ·)`,
`x = 1`, `p = ⟨1, true⟩`. -/
theorem ep2_mul_cof_bn_spec_witness :
    (⟨1, true⟩ : EP2 ℤ).norm = true ∧
    (ep2_mul_cof_bn (fun g => 2 * g) 1 (⟨1, true⟩ : EP2 ℤ) =
      ⟨(fun g => 2 * g)^[3] (1 : ℤ) + (1 : ℤ) • (1 : ℤ) +
        (fun g => 2 * g) ((3 : ℤ) • ((1 : ℤ) • (1 : ℤ))) +
        (fun g => 2 * g)^[2] ((1 : ℤ) • (1 : ℤ)), true⟩ ∧
     (ep2_mul_basic (⟨1, true⟩ : EP2 ℤ) 1).norm = true ∧
     (ep2_norm (ep2_add (ep2_dbl (ep2_mul_basic (⟨1, true⟩ : EP2 ℤ) 1))
       (ep2_mul_basic (⟨1, true⟩ : EP2 ℤ) 1))).norm = true ∧
     (ep2_frb (fun g => 2 * g) (⟨1, true⟩ : EP2 ℤ) 2).norm = true) :=
  ⟨rfl, ep2_mul_cof_bn_spec (fun g => 2 * g) 1 ⟨1, true⟩ rfl⟩

/-- C3: on a BLS12 curve, for a normalized input `p`, `ep2_mul_cof_b12`
returns the normalized point
`(x² - x - 1)·p + ψ((x - 1)·p) + ψ²(2·p)`. -/
theorem ep2_mul_cof_b12_spec {G : Type} [AddCommGroup G] (ψ : G → G)
    (x : ℤ) (p : EP2 G) (hp : p.norm = true) :
    ep2_mul_cof_b12 ψ x p =
      ⟨(x ^ 2 - x - 1) • p.val + ψ ((x - 1) • p.val) +
        ψ^[2] ((2 : ℤ) • p.val), true⟩ := by
  simp only [ep2_mul_cof_b12, ep2_mul_basic, ep2_sub, ep2_dbl, ep2_add,
    ep2_norm, ep2_frb, EP2.mk.injEq, and_true]
  rw [sub_smul, sub_smul, one_smul, sub_smul, one_smul, pow_two,
    mul_smul, two_zsmul]
  simp

/-- Witness for `ep2_mul_cof_b12_spec` at `G = ℤ`, `ψ = (2 * ·)`,
`x = 3`, `p = ⟨1, true⟩`. -/
theorem ep2_mul_cof_b12_spec_witness :
    (⟨1, true⟩ : EP2 ℤ).norm = true ∧
    ep2_mul_cof_b12 (fun g => 2 * g) 3 (⟨1, true⟩ : EP2 ℤ) =
      ⟨((3 : ℤ) ^ 2 - 3 - 1) • (1 : ℤ) +
        (fun g => 2 * g) (((3 : ℤ) - 1) • (1 : ℤ)) +
        (fun g => 2 * g)^[2] ((2 : ℤ) • (1 : ℤ)), true⟩ :=
  ⟨rfl, ep2_mul_cof_b12_spec (fun g => 2 * g) 3 ⟨1, true⟩ rfl⟩

/-! ## Coordinate-level model of `ep2_map`'s candidate search

For the candidate finder the relevant structure is the pair of
base-field components of each Fp2 coordinate.  The base field is an
arbitrary commutative ring `F` (in RELIC, `ZMod p`); the curve
right-hand side `ep2_rhs` and the square root with success test
`fp2_srt` are external black boxes, passed as parameters (`fp2_srt`
returns `some root` exactly on success). -/

/-- A G2 point as the candidate finder sees it: each Fp2 coordinate is
a pair (real component `.1`, imaginary component `.2`) of base-field
elements, plus the `normalized` flag. -/
structure EP2p (F : Type) where
  x : F × F
  y : F × F
  z : F × F
  norm : Bool
deriving DecidableEq

/-- Modelled from the spec: `bn_read_bin` interprets a byte string as a
big-endian unsigned integer. -/
def bn_read_bin (bytes : List ℕ) : ℕ :=
  bytes.foldl (fun acc b => 256 * acc + b) 0

/-- Lines 241-247 of `ep2_map`: hash the message, read the first
`min(RLC_FP_BYTES, RLC_MD_LEN)` digest bytes as a big-endian integer
(`bn_read_bin`), reduce it into the base field (`fp_prime_conv`,
modelled from the spec as the canonical map `ℕ → F`) into the real part
of `x`, zero the imaginary part of `x`, and set `z = 1`.  `digest` is
the `RLC_MD_LEN`-byte digest of the message; `fpb` and `mdb` are
`RLC_FP_BYTES` and `RLC_MD_LEN`.  No other field of `p` is written at
this step. -/
def ep2_map_init {F : Type} [CommRing F] (fpb mdb : ℕ)
    (digest : List ℕ) (p : EP2p F) : EP2p F :=
  { p with
    x := ((bn_read_bin (digest.take (min fpb mdb)) : F), 0),
    z := (1, 0) }

/-- Line 257 of `ep2_map`: `fp_add_dig(p->x[0], p->x[0], 1)`, the unit
increment of the real part of `x`. -/
def ep2_incx {F : Type} [CommRing F] (p : EP2p F) : EP2p F :=
  { p with x := (p.x.1 + 1, p.x.2) }

/-- The `k`-th candidate of the increment sequence starting at `p`:
`p` with `k` added to the real part of `x`. -/
def ep2_cand {F : Type} [CommRing F] (p : EP2p F) (k : ℕ) : EP2p F :=
  { p with x := (p.x.1 + (k : F), p.x.2) }

/-- Lines 249-258 of `ep2_map`: the try-and-increment loop.  The C
loop is `while(1)`; it is modelled with explicit fuel, `none` meaning
the C code would still be looping after `fuel` iterations.  Each
iteration evaluates the curve right-hand side at the current point
(`ep2_rhs`, external), attempts the extension-field square root
(`fp2_srt`, external, `some root` on success); on success it writes
the root to `y`, sets the normalized flag and stops, on failure it
increments the real part of `x` by one and retries. -/
def ep2_map_loop {F : Type} [CommRing F] (rhs : EP2p F → F × F)
    (srt : F × F → Option (F × F)) : ℕ → EP2p F → Option (EP2p F)
  | 0, _ => none
  | fuel + 1, p =>
    match srt (rhs p) with
    | some y => some { p with y := y, norm := true }
    | none => ep2_map_loop rhs srt fuel (ep2_incx p)

theorem ep2_cand_zero {F : Type} [CommRing F] (p : EP2p F) :
    ep2_cand p 0 = p := by
  simp [ep2_cand]

theorem ep2_cand_succ {F : Type} [CommRing F] (p : EP2p F) (k : ℕ) :
    ep2_cand p (k + 1) = ep2_cand (ep2_incx p) k := by
  simp [ep2_cand, ep2_incx]
  ring

/-- The loop inspects exactly the candidates `ep2_cand p 0, 1, 2, ...`
and, when it returns a point, that point is the first candidate whose
right-hand side admitted a square root, with `y` set to the returned
root and the normalized flag set. -/
theorem ep2_map_loop_first_success {F : Type} [CommRing F]
    (rhs : EP2p F → F × F) (srt : F × F → Option (F × F)) :
    ∀ (fuel : ℕ) (p q : EP2p F),
      ep2_map_loop rhs srt fuel p = some q →
      ∃ k < fuel, (∀ j < k, srt (rhs (ep2_cand p j)) = none) ∧
        srt (rhs (ep2_cand p k)) = some q.y ∧
        q = { ep2_cand p k with y := q.y, norm := true } := by
  intro fuel
  induction fuel with
  | zero => intro p q h; exact absurd h (by simp [ep2_map_loop])
  | succ n ih =>
    intro p q h
    rw [ep2_map_loop] at h
    cases hs : srt (rhs p) with
    | some y =>
      rw [hs] at h
      refine ⟨0, Nat.succ_pos n, by omega, ?_, ?_⟩
      · rw [ep2_cand_zero, hs]
        cases h; rfl
      · cases h; simp [ep2_cand_zero]
    | none =>
      rw [hs] at h
      obtain ⟨k, hk, hfail, hsucc, hq⟩ := ih (ep2_incx p) q h
      refine ⟨k + 1, by omega, ?_, ?_, ?_⟩
      · intro j hj
        cases j with
        | zero => rw [ep2_cand_zero]; exact hs
        | succ j' => rw [ep2_cand_succ]; exact hfail j' (by omega)
      · rw [ep2_cand_succ]; exact hsucc
      · rw [ep2_cand_succ]; exact hq

/-- If some candidate succeeds, the loop returns once given enough
fuel. -/
theorem ep2_map_loop_some_of_success {F : Type} [CommRing F]
    (rhs : EP2p F → F × F) (srt : F × F → Option (F × F)) :
    ∀ (k : ℕ) (p : EP2p F) (y : F × F),
      srt (rhs (ep2_cand p k)) = some y →
      ep2_map_loop rhs srt (k + 1) p ≠ none := by
  intro k
  induction k with
  | zero =>
    intro p y hy
    rw [ep2_cand_zero] at hy
    rw [ep2_map_loop, hy]
    simp
  | succ n ih =>
    intro p y hy
    rw [ep2_cand_succ] at hy
    rw [ep2_map_loop]
    cases hs : srt (rhs p) with
    | some y' => simp
    | none => exact ih (ep2_incx p) y hy

/-- If no candidate ever succeeds, the loop never returns, whatever the
fuel. -/
theorem ep2_map_loop_none_of_all_fail {F : Type} [CommRing F]
    (rhs : EP2p F → F × F) (srt : F × F → Option (F × F)) :
    ∀ (fuel : ℕ) (p : EP2p F),
      (∀ k : ℕ, srt (rhs (ep2_cand p k)) = none) →
      ep2_map_loop rhs srt fuel p = none := by
  intro fuel
  induction fuel with
  | zero => intro p _; rfl
  | succ n ih =>
    intro p hall
    rw [ep2_map_loop]
    have h0 := hall 0
    rw [ep2_cand_zero] at h0
    rw [h0]
    exact ih (ep2_incx p) fun k => by rw [← ep2_cand_succ]; exact hall (k + 1)

/-- C5: the try-and-increment loop of `ep2_map` has no iteration cap:
it fails to return (for every amount of fuel) exactly when the square
root test fails on every candidate of the increment sequence; dually it
returns as soon as some candidate's right-hand side is a square. -/
theorem ep2_map_loop_no_bound {F : Type} [CommRing F]
    (rhs : EP2p F → F × F) (srt : F × F → Option (F × F)) (p : EP2p F) :
    (∀ fuel : ℕ, ep2_map_loop rhs srt fuel p = none) ↔
      (∀ k : ℕ, srt (rhs (ep2_cand p k)) = none) := by
  constructor
  · intro hnone k
    cases hs : srt (rhs (ep2_cand p k)) with
    | none => rfl
    | some y =>
      exact absurd (hnone (k + 1))
        (ep2_map_loop_some_of_success rhs srt k p y hs)
  · intro hall fuel
    exact ep2_map_loop_none_of_all_fail rhs srt fuel p hall

/-- C1 (amended): starting from the digest-derived initial state of
`ep2_map` (real part of `x` = the first `min(fpb, mdb)` digest bytes
read big-endian and reduced into the base field, imaginary part of `x`
zero, `z = 1`), the loop returns the first candidate of the unit
increment sequence whose curve right-hand side admitted a square root,
with `y` set to the returned root; the normalized flag of the result is
set to true at the square-root-success step (not at the `z = 1`
initialization step). -/
theorem ep2_map_candidate_spec {F : Type} [CommRing F]
    (rhs : EP2p F → F × F) (srt : F × F → Option (F × F))
    (fpb mdb fuel : ℕ) (digest : List ℕ) (p0 q : EP2p F)
    (h : ep2_map_loop rhs srt fuel (ep2_map_init fpb mdb digest p0) =
      some q) :
    ∃ k < fuel,
      (∀ j < k,
        srt (rhs (ep2_cand (ep2_map_init fpb mdb digest p0) j)) = none) ∧
      srt (rhs (ep2_cand (ep2_map_init fpb mdb digest p0) k)) = some q.y ∧
      q.x = ((bn_read_bin (digest.take (min fpb mdb)) : F) + (k : F), 0) ∧
      q.z = ((1 : F), 0) ∧
      q.norm = true := by
  obtain ⟨k, hk, hfail, hsucc, hq⟩ :=
    ep2_map_loop_first_success rhs srt fuel _ q h
  refine ⟨k, hk, hfail, hsucc, ?_, ?_, ?_⟩ <;>
    [skip; skip; skip] <;> (conv_lhs => rw [hq]) <;>
    simp [ep2_cand, ep2_map_init]

/-- Concrete right-hand-side oracle for test runs: the candidate's `x`
coordinate itself. -/
def rhsT : EP2p (ZMod 5) → (ZMod 5) × (ZMod 5) := fun q => q.x

/-- Concrete square-root oracle for test runs: succeeds (returning its
input) exactly when the real component equals 3. -/
def srtT : (ZMod 5) × (ZMod 5) → Option ((ZMod 5) × (ZMod 5)) :=
  fun a => if a.1 = 3 then some a else none

/-- Concrete input point for test runs, with the normalized flag
false. -/
def p0T : EP2p (ZMod 5) := ⟨(0, 0), (0, 0), (0, 0), false⟩

/-- Counterexample to C1 as stated: at the initialization step
(lines 244-247 of `ep2_map`) the code writes `x` and `z = 1` but does
not touch the normalized flag, so for an input point whose flag is
false the flag is not true at that step. -/
theorem ep2_map_init_norm_flag_cex :
    ¬ ((ep2_map_init 1 1 [2] p0T).norm = true) := by
  decide

/-- Witness for `ep2_map_candidate_spec`: over `ZMod 5` with digest
byte 2, the first candidate (real part 2) fails, the second (real part
3) succeeds, and the loop returns it with the flag set. -/
theorem ep2_map_candidate_spec_witness :
    (ep2_map_loop rhsT srtT 5 (ep2_map_init 1 1 [2] p0T) =
      some (⟨(3, 0), (3, 0), (1, 0), true⟩ : EP2p (ZMod 5))) ∧
    ∃ k < 5,
      (∀ j < k, srtT (rhsT (ep2_cand (ep2_map_init 1 1 [2] p0T) j)) =
        none) ∧
      srtT (rhsT (ep2_cand (ep2_map_init 1 1 [2] p0T) k)) =
        some (⟨(3, 0), (3, 0), (1, 0), true⟩ : EP2p (ZMod 5)).y ∧
      (⟨(3, 0), (3, 0), (1, 0), true⟩ : EP2p (ZMod 5)).x =
        ((bn_read_bin (([2] : List ℕ).take (min 1 1)) : ZMod 5) +
          ((k : ℕ) : ZMod 5), 0) ∧
      (⟨(3, 0), (3, 0), (1, 0), true⟩ : EP2p (ZMod 5)).z =
        ((1 : ZMod 5), 0) ∧
      (⟨(3, 0), (3, 0), (1, 0), true⟩ : EP2p (ZMod 5)).norm = true :=
  ⟨by decide,
    ep2_map_candidate_spec rhsT srtT 1 1 5 [2] p0T
      ⟨(3, 0), (3, 0), (1, 0), true⟩ (by decide)⟩

/-! ## Horner evaluation and the isogeny transformer

Fp2 arithmetic is out of scope, so the extension field is an arbitrary
commutative ring `R`; coefficient vectors are functions `ℕ → R`
indexed like the C arrays. -/

/-- The loop of `fp2_eval` (lines 51-54 of `relic_ep2_map.c`), iterated
from `i = deg` down to `1` with accumulator `c`: each iteration
performs one `fp2_mul` (`c := c * a`) and one `fp2_add`
(`c := c + coeffs[i-1]`). -/
def fp2_evalLoop {R : Type} [CommRing R] (a : R) (coeffs : ℕ → R) :
    ℕ → R → R
  | 0, c => c
  | i + 1, c => fp2_evalLoop a coeffs i (c * a + coeffs i)

/-- `fp2_eval` (lines 49-55 of `relic_ep2_map.c`): Horner evaluation of
the polynomial with coefficient vector `coeffs[0..=deg]` at `a`,
starting from the leading coefficient `coeffs[deg]`. -/
def fp2_eval {R : Type} [CommRing R] (a : R) (coeffs : ℕ → R)
    (deg : ℕ) : R :=
  fp2_evalLoop a coeffs deg (coeffs deg)

/-- Operation count of `fp2_eval`'s loop: the pair (number of `fp2_mul`
calls, number of `fp2_add` calls), one of each per iteration, mirroring
the recursion of `fp2_evalLoop`. -/
def fp2_evalOps : ℕ → ℕ × ℕ
  | 0 => (0, 0)
  | i + 1 => ((fp2_evalOps i).1 + 1, (fp2_evalOps i).2 + 1)

/-- Invariant of the Horner loop: running it for `n` more iterations
multiplies the accumulator by `a^n` and adds the tail
`coeffs[n-1]*a^(n-1) + ... + coeffs[0]`. -/
theorem fp2_evalLoop_eq {R : Type} [CommRing R] (a : R)
    (coeffs : ℕ → R) :
    ∀ (n : ℕ) (c : R), fp2_evalLoop a coeffs n c =
      c * a ^ n + ∑ i ∈ Finset.range n, coeffs i * a ^ i := by
  intro n
  induction n with
  | zero => intro c; simp [fp2_evalLoop]
  | succ m ih =>
    intro c
    rw [fp2_evalLoop, ih, Finset.sum_range_succ]
    ring

/-- C7: `fp2_eval` returns
`coeffs[deg]*a^deg + ... + coeffs[1]*a + coeffs[0]`, its loop performs
exactly `deg` multiplications and `deg` additions, for `deg = 0` it
returns `coeffs[0]` regardless of `a`, and for `deg = 1` it returns
`coeffs[1]*a + coeffs[0]`. -/
theorem fp2_eval_spec {R : Type} [CommRing R] (a : R) (coeffs : ℕ → R)
    (deg : ℕ) :
    fp2_eval a coeffs deg =
      ∑ i ∈ Finset.range (deg + 1), coeffs i * a ^ i ∧
    fp2_evalOps deg = (deg, deg) ∧
    fp2_eval a coeffs 0 = coeffs 0 ∧
    fp2_eval a coeffs 1 = coeffs 1 * a + coeffs 0 := by
  refine ⟨?_, ?_, ?_, ?_⟩
  · rw [fp2_eval, fp2_evalLoop_eq, Finset.sum_range_succ]
    ring
  · induction deg with
    | zero => rfl
    | succ m ih => rw [fp2_evalOps, ih]
  · rfl
  · rfl

/-- The registered isogeny map (`iso2_t` of the curve-parameter
registry): four coefficient vectors with their degrees. -/
structure Iso2 (R : Type) where
  xn : ℕ → R
  deg_xn : ℕ
  xd : ℕ → R
  deg_xd : ℕ
  yn : ℕ → R
  deg_yn : ℕ
  yd : ℕ → R
  deg_yd : ℕ

/-- A G2 point as the isogeny transformer sees it: each coordinate is
an opaque extension-field element of the abstract commutative ring `R`
(Fp2 arithmetic is external), plus the `normalized` flag. -/
structure EP2c (R : Type) where
  x : R
  y : R
  z : R
  norm : Bool
deriving DecidableEq

/-- `ep2_iso` (lines 61-114 of `relic_ep2_map.c`), success path.  The
curve registry is abstracted into the flag `ctmap`
(`ep2_curve_is_ctmap`) and the coefficients `iso`
(`ep2_curve_get_iso`); `nrm` is the external `ep2_norm` affine
conversion, applied in place to `p` when `p` is not normalized.  Since
the C routine may write through its input pointer, the model returns
the pair (output `q`, final state of `p`). -/
def ep2_iso {R : Type} [CommRing R] (nrm : EP2c R → EP2c R)
    (ctmap : Bool) (iso : Iso2 R) (p : EP2c R) : EP2c R × EP2c R :=
  if ctmap = false then (p, p)
  else
    let p := if p.norm = false then nrm p else p
    let t0 := fp2_eval p.x iso.xn iso.deg_xn
    let t1 := fp2_eval p.x iso.yn iso.deg_yn
    let t2 := fp2_eval p.x iso.yd iso.deg_yd
    let t3 := fp2_eval p.x iso.xd iso.deg_xd
    let qy := p.y * t1
    let qy := qy * t3
    let qz := t2 * t3
    let t1 := qz * qz
    let qy := qy * t1
    let qx := t0 * t2
    let qx := qx * qz
    (⟨qx, qy, qz, false⟩, p)


/-- C4: with an isogeny map configured, `ep2_iso` outputs the point
`(Nx*Dy*Znew, y*Ny*Dx*Znew², Znew)` with `Znew = Dx*Dy` and the
normalized flag false, where `Nx, Dx, Ny, Dy` are the four registered
isogeny polynomials evaluated at the x-coordinate of the input
(normalized first when its flag is false). -/
theorem ep2_iso_spec {R : Type} [CommRing R] (nrm : EP2c R → EP2c R)
    (iso : Iso2 R) (p : EP2c R) :
    (ep2_iso nrm true iso p).1 =
      (let q := if p.norm = false then nrm p else p
      let nx := fp2_eval q.x iso.xn iso.deg_xn
      let dx := fp2_eval q.x iso.xd iso.deg_xd
      let ny := fp2_eval q.x iso.yn iso.deg_yn
      let dy := fp2_eval q.x iso.yd iso.deg_yd
      let znew := dx * dy
      ⟨nx * dy * znew, q.y * ny * dx * znew ^ 2, znew, false⟩) := by
  simp only [ep2_iso, if_neg (by simp : ¬(true = false)), EP2c.mk.injEq]
  refine ⟨by ring, by ring, by ring, trivial⟩

/-- C6: with no isogeny map configured (`ep2_curve_is_ctmap` false),
`ep2_iso` copies `p` to `q` unchanged — all coordinates and the
normalized flag — and leaves `p` untouched. -/
theorem ep2_iso_identity {R : Type} [CommRing R] (nrm : EP2c R → EP2c R)
    (iso : Iso2 R) (p : EP2c R) :
    ep2_iso nrm false iso p = (p, p) := rfl

/-- C10: with an isogeny map configured, `ep2_iso` normalizes its input
argument in place before evaluation when its normalized flag is false
(so the caller's `p` is replaced by `nrm p`), and leaves `p` unchanged
when the flag is true. -/
theorem ep2_iso_mutates_input {R : Type} [CommRing R]
    (nrm : EP2c R → EP2c R) (iso : Iso2 R) (p : EP2c R) :
    (p.norm = false → (ep2_iso nrm true iso p).2 = nrm p) ∧
    (p.norm = true → (ep2_iso nrm true iso p).2 = p) := by
  constructor <;> intro h <;> simp [ep2_iso, h]

/-- Concrete affine-conversion oracle for test runs: set `z = 1` and
the flag. -/
def nrmT : EP2c ℤ → EP2c ℤ := fun q => ⟨q.x, q.y, 1, true⟩

/-- Concrete isogeny coefficients for test runs: all four polynomials
constant 1. -/
def isoT : Iso2 ℤ :=
  ⟨fun _ => 1, 0, fun _ => 1, 0, fun _ => 1, 0, fun _ => 1, 0⟩

/-- Witness for `ep2_iso_mutates_input`: a non-normalized input is
replaced by its normalization, a normalized one is left unchanged. -/
theorem ep2_iso_mutates_input_witness :
    (ep2_iso nrmT true isoT ⟨2, 3, 5, false⟩).2 = nrmT ⟨2, 3, 5, false⟩ ∧
    (ep2_iso nrmT true isoT ⟨2, 3, 1, true⟩).2 =
      (⟨2, 3, 1, true⟩ : EP2c ℤ) :=
  ⟨(ep2_iso_mutates_input nrmT isoT ⟨2, 3, 5, false⟩).1 rfl,
   (ep2_iso_mutates_input nrmT isoT ⟨2, 3, 1, true⟩).2 rfl⟩

/-! ## Default cofactor branch and error paths of `ep2_map` -/

/-- The two scalar-multiplication routines the default family branch of
`ep2_map` can dispatch to (`ep2_mul_dig` and `ep2_mul_basic`). -/
inductive MulKind where
  | mul_dig : MulKind
  | mul_basic : MulKind
deriving DecidableEq

/-- Modelled from the spec: `bn_bits`, the bit length of a nonnegative
big integer. -/
def bn_bits (n : ℕ) : ℕ := Nat.size n

/-- Lines 267-274 of `ep2_map` (default family branch): read the
registered cofactor, then dispatch on `bn_bits(x) < RLC_DIG`: the
single-digit multiplication `ep2_mul_dig` on the least-significant
word `x->dp[0]` (here `cof % 2^w`), or the generic `ep2_mul_basic` on
the whole cofactor.  `w` is `RLC_DIG`, the machine word size in bits;
the multiplications themselves are external, so the result records
which routine ran together with its output. -/
def ep2_map_cof_default {P : Type} (w : ℕ) (mulDig mulBasic : P → ℕ → P)
    (cof : ℕ) (p : P) : MulKind × P :=
  if bn_bits cof < w then (MulKind.mul_dig, mulDig p (cof % 2 ^ w))
  else (MulKind.mul_basic, mulBasic p cof)

/-- Counterexample to C8 as stated: with 64-bit words, the cofactor
`2^63` fits a single machine word, yet the branch condition
`bn_bits(x) < RLC_DIG` is false for it (its bit length is exactly 64),
so the generic multiplication is used, not the single-digit
specialization. -/
theorem ep2_map_cof_default_cex :
    (2 : ℕ) ^ 63 < 2 ^ 64 ∧
    (ep2_map_cof_default 64 (fun _ _ => ()) (fun _ _ => ())
      ((2 : ℕ) ^ 63) ()).1 = MulKind.mul_basic := by
  have hsz : bn_bits ((2 : ℕ) ^ 63) = 64 := by
    unfold bn_bits
    exact Nat.size_pow
  refine ⟨by norm_num, ?_⟩
  rw [ep2_map_cof_default, if_neg (by rw [hsz]; omega)]

/-- C8 (amended): the default branch uses the single-digit
specialization exactly when the cofactor's bit length is strictly less
than the machine word size `w`, and the generic multiplication
otherwise (so a word-size-bit cofactor, though it fits a word, takes
the generic path). -/
theorem ep2_map_cof_default_spec {P : Type} (w : ℕ)
    (mulDig mulBasic : P → ℕ → P) (cof : ℕ) (p : P) :
    ((ep2_map_cof_default w mulDig mulBasic cof p).1 = MulKind.mul_dig ↔
      bn_bits cof < w) ∧
    ((ep2_map_cof_default w mulDig mulBasic cof p).1 = MulKind.mul_basic ↔
      ¬ bn_bits cof < w) := by
  unfold ep2_map_cof_default
  split <;> simp_all

/-- Exception-flow model of `ep2_map` (lines 229-285).  `ep2_map`
computes directly in the caller-provided output point `p`, so writes
already performed persist when an exception propagates
(`CATCH_ANY { THROW(ERR_CAUGHT); }`).  `allocTopOk` models the
`bn_new` / `fp2_new` acquisitions at the head of `ep2_map` (before any
write to `p`); `allocCofOk` models the temporary acquisitions inside
the selected cofactor clearer (after `p` holds the candidate point);
`cofStep` is the selected clearer's effect on success.  The error value
is the state of the caller's `p` at the moment of the throw; `none`
means the candidate loop is still running. -/
def ep2_map_exc {F : Type} [CommRing F] (allocTopOk allocCofOk : Bool)
    (rhs : EP2p F → F × F) (srt : F × F → Option (F × F))
    (cofStep : EP2p F → EP2p F) (fuel fpb mdb : ℕ) (digest : List ℕ)
    (p0 : EP2p F) : Option (Except (EP2p F) (EP2p F)) :=
  if allocTopOk = false then some (Except.error p0)
  else
    match ep2_map_loop rhs srt fuel (ep2_map_init fpb mdb digest p0) with
    | none => none
    | some p2 =>
      if allocCofOk = false then some (Except.error p2)
      else some (Except.ok (cofStep p2))

/-- Exception-flow model of `ep2_iso` (lines 61-114).  The `fp2_new`
acquisitions (lines 79-82) happen after the in-place normalization of
`p` (lines 69-71) but before any write to `q`, so on allocation failure
(`allocOk = false`) the routine throws with `q` still holding its prior
value `q0` while `p` has already been normalized.  The error and
success values are the pair (state of `q`, state of `p`). -/
def ep2_iso_exc {R : Type} [CommRing R] (allocOk : Bool)
    (nrm : EP2c R → EP2c R) (ctmap : Bool) (iso : Iso2 R)
    (q0 p : EP2c R) : Except (EP2c R × EP2c R) (EP2c R × EP2c R) :=
  if ctmap = false then Except.ok (p, p)
  else
    let p1 := if p.norm = false then nrm p else p
    if allocOk = false then Except.error (q0, p1)
    else
      let t0 := fp2_eval p1.x iso.xn iso.deg_xn
      let t1 := fp2_eval p1.x iso.yn iso.deg_yn
      let t2 := fp2_eval p1.x iso.yd iso.deg_yd
      let t3 := fp2_eval p1.x iso.xd iso.deg_xd
      let qy := p1.y * t1
      let qy2 := qy * t3
      let qz := t2 * t3
      let t1sq := qz * qz
      let qy3 := qy2 * t1sq
      let qx := t0 * t2
      let qx2 := qx * qz
      Except.ok (⟨qx2, qy3, qz, false⟩, p1)

/-- Counterexample to C9 as stated: an error path of `ep2_map` on which
the caller-provided output point is left holding partially computed
coordinates.  Over `ZMod 5`, the candidate search succeeds and writes
the candidate into `p`; a temporary-allocation failure inside the
cofactor clearer then aborts the call, and the caller's point holds the
intermediate candidate, which differs from its pre-call value. -/
theorem ep2_map_partial_output_cex :
    ep2_map_exc true false rhsT srtT (fun q => q) 5 1 1 [2] p0T =
      some (Except.error (⟨(3, 0), (3, 0), (1, 0), true⟩ :
        EP2p (ZMod 5))) ∧
    (⟨(3, 0), (3, 0), (1, 0), true⟩ : EP2p (ZMod 5)) ≠ p0T := by
  refine ⟨rfl, by decide⟩

/-- C9 (amended): every failure aborts the call with a propagated
error; on allocation failure in `ep2_map`'s own setup the output point
is still untouched, and on allocation failure in `ep2_iso` the output
`q` is untouched (though `p` has been normalized in place); but a
failure arising after the candidate search — e.g. temporary allocation
inside the cofactor clearer — leaves the caller's point holding the
intermediate candidate, because `ep2_map` computes in the caller's
point in place. -/
theorem ep2_map_iso_error_paths {F R : Type} [CommRing F] [CommRing R]
    (rhs : EP2p F → F × F) (srt : F × F → Option (F × F))
    (cofStep : EP2p F → EP2p F) (fuel fpb mdb : ℕ) (digest : List ℕ)
    (p0 p2 : EP2p F) (nrm : EP2c R → EP2c R) (iso : Iso2 R)
    (q0 p : EP2c R)
    (h : ep2_map_loop rhs srt fuel (ep2_map_init fpb mdb digest p0) =
      some p2) :
    ep2_map_exc false true rhs srt cofStep fuel fpb mdb digest p0 =
      some (Except.error p0) ∧
    ep2_map_exc true false rhs srt cofStep fuel fpb mdb digest p0 =
      some (Except.error p2) ∧
    ep2_iso_exc false nrm true iso q0 p =
      Except.error (q0, if p.norm = false then nrm p else p) := by
  refine ⟨rfl, ?_, rfl⟩
  rw [ep2_map_exc]
  simp [h]

/-- Witness for `ep2_map_iso_error_paths` over `ZMod 5` (for the
`ep2_map` paths) and `ℤ` (for the `ep2_iso` path). -/
theorem ep2_map_iso_error_paths_witness :
    ep2_map_exc false true rhsT srtT (fun q => q) 5 1 1 [2] p0T =
      some (Except.error p0T) ∧
    ep2_map_exc true false rhsT srtT (fun q => q) 5 1 1 [2] p0T =
      some (Except.error (⟨(3, 0), (3, 0), (1, 0), true⟩ :
        EP2p (ZMod 5))) ∧
    ep2_iso_exc false nrmT true isoT ⟨0, 0, 0, true⟩ ⟨2, 3, 5, false⟩ =
      Except.error (⟨0, 0, 0, true⟩,
        if (⟨2, 3, 5, false⟩ : EP2c ℤ).norm = false
        then nrmT ⟨2, 3, 5, false⟩ else ⟨2, 3, 5, false⟩) :=
  ep2_map_iso_error_paths rhsT srtT (fun q => q) 5 1 1 [2] p0T
    ⟨(3, 0), (3, 0), (1, 0), true⟩ nrmT isoT ⟨0, 0, 0, true⟩
    ⟨2, 3, 5, false⟩ (by decide)
